import Mathlib

/-!
Verification of the LDPC construction engine of the ProtographLDPC repository
(`LDPC-library/libs/RegularLDPC.py` and `LDPC-library/libs/ProtographLDPC.py`).

A Tanner graph is embedded as a `List (List Nat)`: position `i` of the outer
list is the adjacency sequence of check node `i` (the Python code stores the
same data as a dict keyed by the contiguous indices `0 .. height-1`, so the
list of values in key order is a faithful rendering).

Randomness: the Python code draws from the process-wide `random` module.
Every construction is parameterised here by the drawn values — a stream
`s : Nat → Nat` for the `random.choice(range(m))` draws (draw `t` yields
`s t % m`, which ranges over exactly the values `random.choice` can return),
and explicit permutation lists for `random.shuffle` / `random.sample`
outcomes, constrained by hypotheses to the outcomes those primitives can
produce.  All theorems are proved for *every* such choice, hence for every
possible behaviour of the program.

The two rejection-sampling `while` loops inside the `populate-rows` /
`populate-columns` placement step are modelled by one draw followed by a
deterministic completion to the first acceptable value when the drawn one is
rejected: the set of values such a loop can produce is exactly the set of
acceptable values, and each of them is realised by some stream.
-/

/-! ### RegularLDPC: the populate-rows placement step

`firstFree row avail` is the scan
`while l < len(available_indices) and tanner_graph.get(i).count(available_indices[l]) == 1: l += 1`
of `RegularLDPC.get_parity_check_graph`: the first position in `avail` whose
entry does not already occur in `row` (returns `avail.length` if every entry
does). -/
def firstFree (row : List Nat) : List Nat → Nat
  | [] => 0
  | a :: rest => if row.count a = 1 then firstFree row rest + 1 else 0

/-- The budget-exhaustion fallback of the populate-rows step:
`random_index = random.choice(range(width))` redrawn
`while tanner_graph.get(i).count(random_index) == 1`.  `v` is the first drawn
value; if it is rejected the loop is completed deterministically with the
first acceptable column index. -/
def fallbackPick (rng v : Nat) (row : List Nat) : Nat :=
  if row.count v = 1 then
    (((List.range rng).find? (fun w => decide (row.count w ≠ 1))).getD v)
  else v

/-- The main placement choice of the populate-rows step:
`random_index = random.choice(range(len(available_indices)))` redrawn
`while tanner_graph.get(i).count(available_indices[random_index]) != 0 and len(available_indices) > 1`.
`d % avail.length` is the first drawn position; if it is rejected the loop is
completed deterministically with the first acceptable position. -/
def elseChoose (d : Nat) (row avail : List Nat) : Nat :=
  if avail.length ≤ 1 then d % avail.length
  else if row.count (avail.getD (d % avail.length) 0) ≠ 0 then
    (((List.range avail.length).find?
        (fun j => decide (row.count (avail.getD j 0) = 0))).getD (d % avail.length))
  else d % avail.length

/-- One iteration of the inner `for j in range(r)` loop of the
`populate-rows` construction (also, with the roles of rows and columns
swapped, of `populate-columns`): place one entry in `row`, with `avail` the
multiset `available_indices`, `placed` the counter `placed_entries`,
`k = n * c` the total budget, `rng` the range of the fallback draw
(the matrix width for populate-rows, its height for populate-columns), and
`d` the random draw used for this slot.  Returns the updated
`(row, available_indices, placed_entries)`. -/
def populateSlot (rng k d : Nat) (row avail : List Nat) (placed : Nat) :
    List Nat × List Nat × Nat :=
  if firstFree row avail + placed = k then
    (row ++ [fallbackPick rng (d % rng) row], avail, placed)
  else
    (row ++ [avail.getD (elseChoose d row avail) 0],
      avail.eraseIdx (elseChoose d row avail), placed + 1)

/-- The inner `for j in range(r)` loop: `j` remaining slots, `t` the index of
the next random draw in the stream `s`. -/
def populateRow (rng k : Nat) (s : Nat → Nat) :
    Nat → Nat → List Nat → List Nat → Nat → List Nat × List Nat × Nat
  | _, 0, row, avail, placed => (row, avail, placed)
  | t, j + 1, row, avail, placed =>
    populateRow rng k s (t + 1) j
      (populateSlot rng k (s t) row avail placed).1
      (populateSlot rng k (s t) row avail placed).2.1
      (populateSlot rng k (s t) row avail placed).2.2

/-- The outer `for i in range(height)` loop of `populate-rows` (shared with
`populate-columns`, whose outer loop runs over the width): `h` remaining
rows, each built from the empty list by `slots` placement steps, threading
`available_indices` and `placed_entries` through. -/
def populateRowsAux (rng slots k : Nat) (s : Nat → Nat) :
    Nat → Nat → List Nat → Nat → List (List Nat)
  | _, 0, _, _ => []
  | t, h + 1, avail, placed =>
    (populateRow rng k s t slots [] avail placed).1 ::
      populateRowsAux rng slots k s (t + slots) h
        (populateRow rng k s t slots [] avail placed).2.1
        (populateRow rng k s t slots [] avail placed).2.2

/-- `available_indices` after the seeding loop
`for i in range(k - 1, -1, -1): available_indices.append(i % width)`. -/
def availInit (w k : Nat) : List Nat :=
  (List.range k).reverse.map (fun i => i % w)

/-- The `populate-rows` branch of `RegularLDPC.get_parity_check_graph`:
width `n`, row weight `r`, column weight `c`, with `int(n * c / r)` check
nodes. -/
def populateRows (n r c : Nat) (s : Nat → Nat) : List (List Nat) :=
  populateRowsAux n r (n * c) s 0 (n * c / r) (availInit n (n * c)) 0

/-- Modelled from the spec: `transpose` from `TannerGraph.py` is not under
`src/`; per the spec the column-regular construction is "built in transposed
coordinates ... and transposed at the end": row `j` of the transpose lists
every row index of `g` whose sequence contains `j`. -/
def transposeGraph (g : List (List Nat)) (h : Nat) : List (List Nat) :=
  (List.range h).map (fun j => (List.range g.length).filter (fun i => j ∈ g.getD i []))

/-- The `populate-columns` branch of `RegularLDPC.get_parity_check_graph`:
the same placement algorithm run over the `n` variable nodes with `c` slots
each, fallback draws over the height, and a final transpose. -/
def populateColumns (n r c : Nat) (s : Nat → Nat) : List (List Nat) :=
  transposeGraph
    (populateRowsAux (n * c / r) c (n * c) s 0 n (availInit (n * c / r) (n * c)) 0)
    (n * c / r)

/-! ### RegularLDPC: the Gallager construction -/

/-- `SubGraph.__init__`: given the shuffled `codeword_indices` list `ci`,
check node `i` of the subgraph receives `ci[i*r .. i*r+r)`. -/
def SubGraph_map (ci : List Nat) (n r : Nat) : List (List Nat) :=
  (List.range (n / r)).map (fun i => (ci.drop (i * r)).take r)

/-- `RegularLDPC.merge`: the `c` subgraphs are stacked vertically, block `i`
occupying keys `i*(n/r) .. i*(n/r) + n/r`; in list form this is the
concatenation of the blocks in order. -/
def RegularLDPC_merge (subs : List (List (List Nat))) : List (List Nat) :=
  subs.flatten

/-- The `gallager` branch of `RegularLDPC.get_parity_check_graph`:
`perms i` is the outcome of the `random.shuffle` of `list(range(0, n))`
performed by the `i`-th `SubGraph`. -/
def gallager (n r c : Nat) (perms : Nat → List Nat) : List (List Nat) :=
  RegularLDPC_merge ((List.range c).map (fun i => SubGraph_map (perms i) n r))

/-! ### RegularLDPC: constructor and dispatcher -/

/-- The row-weight inference of `RegularLDPC.__init__`:
`self.r = int((self.width / self.height) * self.c)`, Python float division
and truncation modelled as exact rational arithmetic and floor (all the
quantities proved about here are small enough for the two to agree). -/
def inferredR (n h c : Nat) : Nat :=
  (Int.floor (((n : ℚ) / (h : ℚ)) * (c : ℚ))).toNat

/-- The random outcomes consumed by one `RegularLDPC` construction: the
shuffles of the Gallager subgraphs and the draw stream of the placement
loops. -/
structure RegRand where
  perms : Nat → List Nat
  stream : Nat → Nat

/-- `RegularLDPC.get_parity_check_graph`: dispatch on the construction
name. -/
def get_parity_check_graph (n r c : Nat) (method : String) (rnd : RegRand) :
    Except String (List (List Nat)) :=
  if method = "gallager" then .ok (gallager n r c rnd.perms)
  else if method = "populate-rows" then .ok (populateRows n r c rnd.stream)
  else if method = "populate-columns" then .ok (populateColumns n r c rnd.stream)
  else .error "Invalid construction method"

/-- The attributes a finished `RegularLDPC` object carries. -/
structure RegularLDPCModel where
  width : Nat
  height : Nat
  n : Nat
  c : Nat
  r : Nat
  tanner_graph : List (List Nat)

/-- `RegularLDPC.__init__`: three arguments `[width, height, ones-per-col]`
are required, the row weight is inferred, and the graph is built by
`get_parity_check_graph`. -/
def RegularLDPC_init (args : List Nat) (construction : String) (rnd : RegRand) :
    Except String RegularLDPCModel :=
  if args.length = 3 then
    match get_parity_check_graph (args.getD 0 0)
        (inferredR (args.getD 0 0) (args.getD 1 0) (args.getD 2 0))
        (args.getD 2 0) construction rnd with
    | .error e => .error e
    | .ok g =>
      .ok ⟨args.getD 0 0, args.getD 1 0, args.getD 0 0, args.getD 2 0,
        inferredR (args.getD 0 0) (args.getD 1 0) (args.getD 2 0), g⟩
  else .error "invalid input provided"

/-! ### Basic facts about the placement step -/

lemma firstFree_le (row : List Nat) : ∀ avail : List Nat, firstFree row avail ≤ avail.length := by
  intro avail
  induction avail with
  | nil => simp [firstFree]
  | cons a rest ih =>
    simp only [firstFree, List.length_cons]
    split <;> omega

lemma firstFree_spec (row : List Nat) :
    ∀ avail : List Nat, firstFree row avail < avail.length →
      row.count (avail.getD (firstFree row avail) 0) ≠ 1 := by
  intro avail
  induction avail with
  | nil => simp [firstFree]
  | cons a rest ih =>
    simp only [firstFree, List.length_cons]
    split
    · intro h
      simpa using ih (by omega)
    · intro _
      simpa using (by assumption)

lemma notMem_of_count_ne_one {row : List Nat} {x : Nat} (hnd : row.Nodup)
    (h : row.count x ≠ 1) : x ∉ row := by
  intro hx
  have h1 : 0 < row.count x := List.count_pos_iff.mpr hx
  have h2 : row.count x ≤ 1 := List.nodup_iff_count_le_one.mp hnd x
  omega

lemma exists_notMem_range (row : List Nat) (n : Nat) (hlen : row.length < n) :
    ∃ w ∈ List.range n, w ∉ row := by
  by_contra hall
  push_neg at hall
  have hsub : (List.range n).toFinset ⊆ row.toFinset := by
    intro w hw
    rw [List.mem_toFinset] at hw ⊢
    exact hall w hw
  have h1 : (List.range n).toFinset.card = n := by
    rw [List.toFinset_card_of_nodup (List.nodup_range n), List.length_range]
  have h2 : row.toFinset.card ≤ row.length := row.toFinset_card_le
  have := Finset.card_le_card hsub
  omega

lemma fallbackPick_notMem (rng v : Nat) (row : List Nat) (hnd : row.Nodup)
    (hlen : row.length < rng) : fallbackPick rng v row ∉ row := by
  unfold fallbackPick
  split
  · obtain ⟨w, hwmem, hwrow⟩ := exists_notMem_range row rng hlen
    have hw : row.count w ≠ 1 := by
      rw [List.count_eq_zero.mpr hwrow]; omega
    have hsome : ((List.range rng).find? (fun w => decide (row.count w ≠ 1))).isSome := by
      rw [List.find?_isSome]
      exact ⟨w, hwmem, by simpa using hw⟩
    obtain ⟨a, ha⟩ := Option.isSome_iff_exists.mp hsome
    have hpa := List.find?_some ha
    rw [ha]
    simp only [Option.getD_some]
    exact notMem_of_count_ne_one hnd (by simpa using hpa)
  · exact notMem_of_count_ne_one hnd (by assumption)

lemma elseChoose_spec (d : Nat) (row avail : List Nat) (hnd : row.Nodup)
    (hlt : firstFree row avail < avail.length) :
    elseChoose d row avail < avail.length ∧
      avail.getD (elseChoose d row avail) 0 ∉ row := by
  have hpos : 0 < avail.length := by omega
  have hl := firstFree_spec row avail hlt
  have hlmem : avail.getD (firstFree row avail) 0 ∉ row :=
    notMem_of_count_ne_one hnd hl
  have hlcount : row.count (avail.getD (firstFree row avail) 0) = 0 :=
    List.count_eq_zero.mpr hlmem
  unfold elseChoose
  split
  · -- avail.length ≤ 1, so avail.length = 1 and firstFree = 0
    have h1 : avail.length = 1 := by omega
    have hff : firstFree row avail = 0 := by omega
    have hd : d % avail.length = 0 := by rw [h1]; exact Nat.mod_one d
    rw [hd]
    rw [hff] at hlmem
    exact ⟨by omega, hlmem⟩
  · split
    · have hsome : ((List.range avail.length).find?
          (fun j => decide (row.count (avail.getD j 0) = 0))).isSome := by
        rw [List.find?_isSome]
        exact ⟨firstFree row avail, List.mem_range.mpr hlt, by simpa using hlcount⟩
      obtain ⟨a, ha⟩ := Option.isSome_iff_exists.mp hsome
      have hpa := List.find?_some ha
      have hamem := List.mem_of_find?_eq_some ha
      rw [ha]
      simp only [Option.getD_some]
      refine ⟨List.mem_range.mp hamem, ?_⟩
      have : row.count (avail.getD a 0) = 0 := by simpa using hpa
      exact List.count_eq_zero.mp this
    · refine ⟨Nat.mod_lt _ hpos, ?_⟩
      have hc0 : row.count (avail.getD (d % avail.length) 0) = 0 := by
        by_contra hc
        exact (by assumption : ¬row.count (avail.getD (d % avail.length) 0) ≠ 0) hc
      exact List.count_eq_zero.mp hc0

lemma populateSlot_inv (rng k d : Nat) (row avail : List Nat) (placed : Nat)
    (hnd : row.Nodup) (hbal : placed + avail.length = k) (hlen : row.length < rng) :
    (populateSlot rng k d row avail placed).1.Nodup ∧
      (populateSlot rng k d row avail placed).1.length = row.length + 1 ∧
      (populateSlot rng k d row avail placed).2.2 +
        (populateSlot rng k d row avail placed).2.1.length = k := by
  unfold populateSlot
  split
  · refine ⟨?_, by simp, by simpa using hbal⟩
    have hx := fallbackPick_notMem rng (d % rng) row hnd hlen
    simp only [List.nodup_append, List.nodup_cons, List.nodup_nil]
    exact ⟨hnd, by simp, by simpa [List.disjoint_singleton] using hx⟩
  · have hne : ¬(firstFree row avail + placed = k) := by assumption
    have hlt : firstFree row avail < avail.length := by
      have h1 := firstFree_le row avail
      omega
    obtain ⟨hclt, hcnot⟩ := elseChoose_spec d row avail hnd hlt
    refine ⟨?_, by simp, ?_⟩
    · simp only [List.nodup_append, List.nodup_cons, List.nodup_nil]
      exact ⟨hnd, by simp, by simpa [List.disjoint_singleton] using hcnot⟩
    · simp only
      rw [List.length_eraseIdx_of_lt hclt]
      omega

lemma populateSlot_length (rng k d : Nat) (row avail : List Nat) (placed : Nat) :
    (populateSlot rng k d row avail placed).1.length = row.length + 1 := by
  unfold populateSlot
  split <;> simp

lemma populateRow_length (rng k : Nat) (s : Nat → Nat) :
    ∀ (j t : Nat) (row avail : List Nat) (placed : Nat),
      (populateRow rng k s t j row avail placed).1.length = row.length + j := by
  intro j
  induction j with
  | zero => intro t row avail placed; simp [populateRow]
  | succ m ih =>
    intro t row avail placed
    rw [populateRow]
    rw [ih]
    rw [populateSlot_length]
    omega

lemma populateRow_inv (rng k : Nat) (s : Nat → Nat) :
    ∀ (j t : Nat) (row avail : List Nat) (placed : Nat),
      row.Nodup → placed + avail.length = k → row.length + j ≤ rng →
      (populateRow rng k s t j row avail placed).1.Nodup ∧
        (populateRow rng k s t j row avail placed).2.2 +
          (populateRow rng k s t j row avail placed).2.1.length = k := by
  intro j
  induction j with
  | zero => intro t row avail placed hnd hbal _; exact ⟨hnd, hbal⟩
  | succ m ih =>
    intro t row avail placed hnd hbal hle
    have hlen : row.length < rng := by omega
    obtain ⟨h1, h2, h3⟩ := populateSlot_inv rng k (s t) row avail placed hnd hbal hlen
    rw [populateRow]
    exact ih (t + 1) _ _ _ h1 h3 (by rw [h2]; omega)

lemma populateRowsAux_length (rng slots k : Nat) (s : Nat → Nat) :
    ∀ (h t : Nat) (avail : List Nat) (placed : Nat),
      (populateRowsAux rng slots k s t h avail placed).length = h := by
  intro h
  induction h with
  | zero => intro t avail placed; simp [populateRowsAux]
  | succ m ih =>
    intro t avail placed
    rw [populateRowsAux]
    simp [ih]

lemma populateRowsAux_row_length (rng slots k : Nat) (s : Nat → Nat) :
    ∀ (h t : Nat) (avail : List Nat) (placed : Nat),
      ∀ row ∈ populateRowsAux rng slots k s t h avail placed, row.length = slots := by
  intro h
  induction h with
  | zero => intro t avail placed row hrow; simp [populateRowsAux] at hrow
  | succ m ih =>
    intro t avail placed row hrow
    rw [populateRowsAux] at hrow
    rcases List.mem_cons.mp hrow with h1 | h2
    · subst h1
      rw [populateRow_length]
      simp
    · exact ih _ _ _ row h2

lemma populateRowsAux_nodup (rng slots k : Nat) (s : Nat → Nat) (hslots : slots ≤ rng) :
    ∀ (h t : Nat) (avail : List Nat) (placed : Nat),
      placed + avail.length = k →
      ∀ row ∈ populateRowsAux rng slots k s t h avail placed, row.Nodup := by
  intro h
  induction h with
  | zero => intro t avail placed _ row hrow; simp [populateRowsAux] at hrow
  | succ m ih =>
    intro t avail placed hbal row hrow
    obtain ⟨h1, h2⟩ :=
      populateRow_inv rng k s slots t [] avail placed (by simp) hbal (by simpa using hslots)
    rw [populateRowsAux] at hrow
    rcases List.mem_cons.mp hrow with hc | hc
    · subst hc; exact h1
    · exact ih _ _ _ h2 row hc

/-- C1: for every valid `(n, r, c)` with `n % r = 0` and every random
behaviour, the row-regular (`populate-rows`) construction returns a graph in
which every check node's adjacency sequence has length exactly `r` and
contains no repeated variable-node index. -/
theorem populateRows_row_regular (n r c : Nat) (s : Nat → Nat)
    (hn : 0 < n) (hr : 0 < r) (hmod : n % r = 0) :
    ∀ row ∈ populateRows n r c s, row.length = r ∧ row.Nodup := by
  have hrn : r ≤ n := by
    by_contra hcon
    push_neg at hcon
    rw [Nat.mod_eq_of_lt hcon] at hmod
    omega
  intro row hrow
  have hbal : (0 : Nat) + (availInit n (n * c)).length = n * c := by
    simp [availInit]
  refine ⟨?_, ?_⟩
  · exact populateRowsAux_row_length n r (n * c) s (n * c / r) 0 _ 0 row hrow
  · exact populateRowsAux_nodup n r (n * c) s hrn (n * c / r) 0 _ 0 hbal row hrow

/-- C1 witness: the theorem applied to `n = 4`, `r = 2`, `c = 2` and the
all-zeros draw stream, at the first row of the resulting graph. -/
theorem populateRows_row_regular_witness :
    ((populateRows 4 2 2 (fun _ => 0)).getD 0 []).length = 2 ∧
      ((populateRows 4 2 2 (fun _ => 0)).getD 0 []).Nodup :=
  populateRows_row_regular 4 2 2 (fun _ => 0) (by decide) (by decide) (by decide)
    ((populateRows 4 2 2 (fun _ => 0)).getD 0 []) (by decide)

/-! ### The Gallager construction (claim C2) -/

lemma sum_map_const {α : Type} (l : List α) (m : Nat) :
    (l.map (fun _ => m)).sum = l.length * m := by
  induction l with
  | nil => simp
  | cons a rest ih => simp [ih]; ring

/-- C2: for every valid `(n, r, c)` with `n % r = 0` and every family of
shuffles, the Gallager construction returns a graph with exactly
`c * (n / r)` check nodes, and every check node of every stacked block has
row weight exactly `r` with no repeated index. -/
theorem gallager_block_regular (n r c : Nat) (perms : Nat → List Nat)
    (hmod : n % r = 0)
    (hperm : ∀ i, i < c → (perms i).length = n ∧ (perms i).Nodup) :
    (gallager n r c perms).length = c * (n / r) ∧
      ∀ row ∈ gallager n r c perms, row.length = r ∧ row.Nodup := by
  constructor
  · unfold gallager RegularLDPC_merge
    rw [List.length_flatten, List.map_map]
    have hconst : (List.range c).map (List.length ∘ fun i => SubGraph_map (perms i) n r) =
        (List.range c).map (fun _ => n / r) := by
      apply List.map_congr_left
      intro i _
      simp [SubGraph_map]
    rw [hconst, sum_map_const, List.length_range]
  · intro row hrow
    unfold gallager RegularLDPC_merge at hrow
    rw [List.mem_flatten] at hrow
    obtain ⟨blk, hblk, hrowblk⟩ := hrow
    rw [List.mem_map] at hblk
    obtain ⟨i, hi, rfl⟩ := hblk
    rw [List.mem_range] at hi
    unfold SubGraph_map at hrowblk
    rw [List.mem_map] at hrowblk
    obtain ⟨j, hj, rfl⟩ := hrowblk
    rw [List.mem_range] at hj
    obtain ⟨hlen, hnd⟩ := hperm i hi
    have hb : j * r + r ≤ n := by
      have h1 : (j + 1) * r ≤ (n / r) * r := mul_le_mul_right' (Nat.succ_le_of_lt hj) r
      have h2 : (n / r) * r ≤ n := Nat.div_mul_le_self n r
      calc j * r + r = (j + 1) * r := by ring
        _ ≤ (n / r) * r := h1
        _ ≤ n := h2
    constructor
    · rw [List.length_take, List.length_drop, hlen]
      omega
    · exact hnd.sublist ((List.take_sublist _ _).trans (List.drop_sublist _ _))

/-- C2 witness: the theorem applied to `n = 4`, `r = 2`, `c = 2` with the
identity shuffle for every subgraph, at the first row of the result. -/
theorem gallager_block_regular_witness :
    (gallager 4 2 2 (fun _ => [0, 1, 2, 3])).length = 2 * (4 / 2) ∧
      (((gallager 4 2 2 (fun _ => [0, 1, 2, 3])).getD 0 []).length = 2 ∧
        ((gallager 4 2 2 (fun _ => [0, 1, 2, 3])).getD 0 []).Nodup) :=
  ⟨(gallager_block_regular 4 2 2 (fun _ => [0, 1, 2, 3]) (by decide) (by decide)).1,
    (gallager_block_regular 4 2 2 (fun _ => [0, 1, 2, 3]) (by decide) (by decide)).2
      ((gallager 4 2 2 (fun _ => [0, 1, 2, 3])).getD 0 []) (by decide)⟩

/-! ### The cyclic submatrix constructions (claims C3 and C4)

`construct_cyclic_submatrix` of `ProtographLDPC.py` writes the current index
list into each row in turn and advances it by one circular right shift. -/

/-- Modelled from the spec: `right_shift_row` from `TannerGraph.py` is not
under `src/`; per the spec each index of the row advances by `+1 mod` the
submatrix width. -/
def right_shift_row (row : List Nat) (w : Nat) : List Nat :=
  row.map (fun x => (x + 1) % w)

/-- The loop `for i in range(graph.width)` of `construct_cyclic_submatrix`,
with `m` rows left to write (`graph.put` — not under `src/` — is modelled
from the spec as storing the row value). -/
def cyclicAux (w : Nat) : Nat → List Nat → List (List Nat)
  | 0, _ => []
  | m + 1, seed => seed :: cyclicAux w m (right_shift_row seed w)

/-- `construct_cyclic_submatrix` on a width-`w` graph whose rows are all
written by the loop. -/
def construct_cyclic_submatrix (first_row_indices : List Nat) (w : Nat) :
    List (List Nat) :=
  cyclicAux w w first_row_indices

lemma cyclicAux_getD (w : Nat) :
    ∀ (m i : Nat) (seed : List Nat), i < m →
      (cyclicAux w m seed).getD i [] = (fun l => right_shift_row l w)^[i] seed := by
  intro m
  induction m with
  | zero => intro i seed h; omega
  | succ p ih =>
    intro i seed h
    cases i with
    | zero => simp [cyclicAux]
    | succ q =>
      rw [cyclicAux]
      simp only [List.getD_cons_succ]
      rw [ih q _ (by omega), Function.iterate_succ_apply]

lemma right_shift_row_inv (f : Nat) (hf : 0 < f) (l : List Nat) (hnd : l.Nodup)
    (hbd : ∀ x ∈ l, x < f) :
    (right_shift_row l f).Nodup ∧ (∀ x ∈ right_shift_row l f, x < f) ∧
      (right_shift_row l f).length = l.length := by
  have hinj : ∀ x ∈ l, ∀ y ∈ l, (x + 1) % f = (y + 1) % f → x = y := by
    intro x hx y hy hxy
    have hxf := hbd x hx
    have hyf := hbd y hy
    rcases Nat.lt_or_ge (x + 1) f with h1 | h1
    · rw [Nat.mod_eq_of_lt h1] at hxy
      rcases Nat.lt_or_ge (y + 1) f with h2 | h2
      · rw [Nat.mod_eq_of_lt h2] at hxy; omega
      · have hy1 : y + 1 = f := by omega
        rw [hy1, Nat.mod_self] at hxy; omega
    · have hx1 : x + 1 = f := by omega
      rw [hx1, Nat.mod_self] at hxy
      rcases Nat.lt_or_ge (y + 1) f with h2 | h2
      · rw [Nat.mod_eq_of_lt h2] at hxy; omega
      · omega
  refine ⟨hnd.map_on hinj, ?_, by simp [right_shift_row]⟩
  intro x hx
  rw [right_shift_row, List.mem_map] at hx
  obtain ⟨a, _, rfl⟩ := hx
  exact Nat.mod_lt _ hf

/-- C3: for every `f` and multiplicity `v` with `0 < v ≤ f`, and every
admissible seed (the outcome of `random.sample(range(f), v)`: `v` distinct
indices below `f`), in the cyclic `f × f` submatrix the index set of row
`i + 1` equals the index set of row `i` with every index advanced by
`+1 mod f`, and every row has weight exactly `v`. -/
theorem cyclic_submatrix_rows (f v : Nat) (seed : List Nat) (hv : 0 < v)
    (hvf : v ≤ f) (hlen : seed.length = v) (hnd : seed.Nodup)
    (hbd : ∀ x ∈ seed, x < f) :
    (∀ i, i + 1 < f →
      ((construct_cyclic_submatrix seed f).getD (i + 1) []).toFinset =
        ((construct_cyclic_submatrix seed f).getD i []).toFinset.image
          (fun x => (x + 1) % f)) ∧
      ∀ i, i < f → ((construct_cyclic_submatrix seed f).getD i []).length = v ∧
        ((construct_cyclic_submatrix seed f).getD i []).Nodup := by
  have hf : 0 < f := lt_of_lt_of_le hv hvf
  have hit : ∀ i, ((fun l => right_shift_row l f)^[i] seed).Nodup ∧
      (∀ x ∈ (fun l => right_shift_row l f)^[i] seed, x < f) ∧
      ((fun l => right_shift_row l f)^[i] seed).length = v := by
    intro i
    induction i with
    | zero => exact ⟨hnd, hbd, hlen⟩
    | succ p ih =>
      rw [Function.iterate_succ_apply']
      obtain ⟨a, b, c⟩ := ih
      obtain ⟨d, e, g⟩ := right_shift_row_inv f hf _ a b
      exact ⟨d, e, by rw [g, c]⟩
  constructor
  · intro i hi
    show ((cyclicAux f f seed).getD (i + 1) []).toFinset =
      ((cyclicAux f f seed).getD i []).toFinset.image (fun x => (x + 1) % f)
    rw [cyclicAux_getD f f (i + 1) seed hi,
      cyclicAux_getD f f i seed (by omega), Function.iterate_succ_apply']
    simp only [right_shift_row]
    ext x
    simp [List.mem_toFinset, Finset.mem_image, List.mem_map]
  · intro i hi
    show ((cyclicAux f f seed).getD i []).length = v ∧ ((cyclicAux f f seed).getD i []).Nodup
    rw [cyclicAux_getD f f i seed hi]
    obtain ⟨a, _, c⟩ := hit i
    exact ⟨c, a⟩

/-- C3 witness: the theorem applied to `f = 3`, `v = 2`, seed `[0, 2]`, at
rows 0, 1 and 2 of the result. -/
theorem cyclic_submatrix_rows_witness :
    ((construct_cyclic_submatrix [0, 2] 3).getD 1 []).toFinset =
      ((construct_cyclic_submatrix [0, 2] 3).getD 0 []).toFinset.image
        (fun x => (x + 1) % 3) ∧
      ((construct_cyclic_submatrix [0, 2] 3).getD 2 []).length = 2 :=
  ⟨(cyclic_submatrix_rows 3 2 [0, 2] (by decide) (by decide) (by decide) (by decide)
      (by decide)).1 0 (by decide),
    ((cyclic_submatrix_rows 3 2 [0, 2] (by decide) (by decide) (by decide) (by decide)
      (by decide)).2 2 (by decide)).1⟩

lemma cyclic_getD_zero (L : List Nat) (f : Nat) (hf : 0 < f) :
    (construct_cyclic_submatrix L f).getD 0 [] = L := by
  obtain ⟨m, rfl⟩ := Nat.exists_eq_succ_of_ne_zero hf.ne'
  simp [construct_cyclic_submatrix, cyclicAux]

/-- C4: for every seed index list `L` and every positive submatrix width
`f`, the cyclic submatrix built from `L` has `L` itself as its row `0`; in
particular the permuted-quasi-cyclic variant's pre-permutation row `0`,
seeded with `list(range(v))`, is `0 .. v-1`. -/
theorem cyclic_first_row (L : List Nat) (f : Nat) (hf : 0 < f) :
    (construct_cyclic_submatrix L f).getD 0 [] = L ∧
      ∀ v : Nat, (construct_cyclic_submatrix (List.range v) f).getD 0 [] = List.range v :=
  ⟨cyclic_getD_zero L f hf, fun v => cyclic_getD_zero (List.range v) f hf⟩

/-- C4 witness: the theorem applied to the seed `[0, 2]` and width `3`, with
the range instantiation at `v = 2`. -/
theorem cyclic_first_row_witness :
    (construct_cyclic_submatrix [0, 2] 3).getD 0 [] = [0, 2] ∧
      (construct_cyclic_submatrix (List.range 2) 3).getD 0 [] = List.range 2 :=
  ⟨(cyclic_first_row [0, 2] 3 (by decide)).1, (cyclic_first_row [0, 2] 3 (by decide)).2 2⟩

/-! ### The permutation submatrix construction (claim C5)

`ProtographLDPC.submatrix` with `submatrix_construction == "permutation"`
starts from one random permutation and absorbs further non-overlapping
random permutations.  `Identity`, `overlaps` and `absorb_nonoverlapping`
live in files that are not under `src/` and are modelled from the spec. -/

/-- Modelled from the spec: `Identity` (from `libs/Identity.py`, not under
`src/`): the permutation drawn by `random.sample(range(factor), factor)` is
stored one edge per row, row `i` holding the single column `perm[i]`. -/
def Identity_rows (perm : List Nat) : List (List Nat) :=
  perm.map (fun x => [x])

/-- Modelled from the spec: `overlaps` (not under `src/`): true iff some row
index maps to the same column in both structures. -/
def graph_overlaps (g h : List (List Nat)) : Bool :=
  (List.range g.length).any
    (fun i => (g.getD i []).any (fun x => (h.getD i []).contains x))

/-- Modelled from the spec: `absorb_nonoverlapping` at offset `[0, 0]` (not
under `src/`): the union of the two edge sets, row by row. -/
def absorb_nonoverlapping (g h : List (List Nat)) : List (List Nat) :=
  List.zipWith (fun a b => a ++ b) g h

/-- The rejection-sampling loop of the `"permutation"` branch only absorbs a
trial permutation when it does not overlap the accumulated graph; this
predicate says the whole trial list was accepted in order. -/
def acceptedTrialsB (acc : List (List Nat)) : List (List Nat) → Bool
  | [] => true
  | p :: rest =>
    !(graph_overlaps acc (Identity_rows p)) &&
      acceptedTrialsB (absorb_nonoverlapping acc (Identity_rows p)) rest

/-- The `"permutation"` branch of `ProtographLDPC.submatrix`: `p0` is the
first drawn permutation, `trials` the accepted trial permutations in
order. -/
def permutation_submatrix (p0 : List Nat) (trials : List (List Nat)) : List (List Nat) :=
  trials.foldl (fun acc p => absorb_nonoverlapping acc (Identity_rows p)) (Identity_rows p0)

/-- The column weight of column `j`: the total number of occurrences of `j`
over all adjacency sequences. -/
def colWeight (g : List (List Nat)) (j : Nat) : Nat :=
  (g.map (fun row => row.count j)).sum

lemma colWeight_cons (row : List Nat) (g : List (List Nat)) (j : Nat) :
    colWeight (row :: g) j = row.count j + colWeight g j := by
  simp [colWeight]

lemma colWeight_identity (p : List Nat) (j : Nat) :
    colWeight (Identity_rows p) j = p.count j := by
  induction p with
  | nil => simp [colWeight, Identity_rows]
  | cons x p ih =>
    show colWeight ([x] :: Identity_rows p) j = (x :: p).count j
    rw [colWeight_cons, ih]
    simp only [List.count_cons, List.count_nil, Nat.zero_add]
    omega

lemma colWeight_zipWith (j : Nat) :
    ∀ g h : List (List Nat), g.length = h.length →
      colWeight (List.zipWith (fun a b => a ++ b) g h) j =
        colWeight g j + colWeight h j := by
  intro g
  induction g with
  | nil =>
    intro h hh
    cases h with
    | nil => simp [colWeight]
    | cons b t => simp at hh
  | cons a g ih =>
    intro h hh
    cases h with
    | nil => simp at hh
    | cons b h =>
      simp only [List.zipWith_cons_cons]
      rw [colWeight_cons, colWeight_cons, colWeight_cons, List.count_append,
        ih h (by simpa using hh)]
      omega

lemma Identity_rows_length (p : List Nat) : (Identity_rows p).length = p.length := by
  simp [Identity_rows]

lemma Identity_rows_getD (p : List Nat) (i : Nat) (hi : i < p.length) :
    (Identity_rows p).getD i [] = [p.getD i 0] := by
  rw [Identity_rows, List.getD_eq_getElem _ _ (by simpa using hi), List.getElem_map,
    List.getD_eq_getElem _ _ hi]

lemma absorb_length (g h : List (List Nat)) :
    (absorb_nonoverlapping g h).length = min g.length h.length := by
  simp [absorb_nonoverlapping]

lemma absorb_getD (g h : List (List Nat)) (i : Nat) (hi : i < g.length)
    (hh : i < h.length) :
    (absorb_nonoverlapping g h).getD i [] = g.getD i [] ++ h.getD i [] := by
  rw [absorb_nonoverlapping,
    List.getD_eq_getElem _ _ (by simp [List.length_zipWith]; omega),
    List.getElem_zipWith, List.getD_eq_getElem _ _ hi, List.getD_eq_getElem _ _ hh]

lemma no_overlap_notMem (acc : List (List Nat)) (p : List Nat) (i : Nat)
    (hi : i < acc.length) (hip : i < p.length)
    (hno : graph_overlaps acc (Identity_rows p) = false) :
    p.getD i 0 ∉ acc.getD i [] := by
  intro hmem
  have : graph_overlaps acc (Identity_rows p) = true := by
    rw [graph_overlaps, List.any_eq_true]
    refine ⟨i, List.mem_range.mpr hi, ?_⟩
    rw [List.any_eq_true]
    refine ⟨p.getD i 0, hmem, ?_⟩
    rw [Identity_rows_getD p i hip]
    simp
  rw [hno] at this
  exact Bool.false_ne_true this

lemma permfold_inv (f : Nat) :
    ∀ (trials acc : List (List Nat)) (m : Nat),
      acc.length = f →
      (∀ p ∈ trials, p.length = f) →
      acceptedTrialsB acc trials = true →
      (∀ i, i < f → ((acc.getD i []).Nodup ∧ (acc.getD i []).length = m)) →
      (trials.foldl (fun acc p => absorb_nonoverlapping acc (Identity_rows p)) acc).length = f ∧
        ∀ i, i < f →
          ((trials.foldl (fun acc p => absorb_nonoverlapping acc (Identity_rows p)) acc).getD i []).Nodup ∧
          ((trials.foldl (fun acc p => absorb_nonoverlapping acc (Identity_rows p)) acc).getD i []).length =
            m + trials.length := by
  intro trials
  induction trials with
  | nil =>
    intro acc m hlen _ _ hrows
    exact ⟨hlen, fun i hi => by simpa using hrows i hi⟩
  | cons p rest ih =>
    intro acc m hlen hall hacc hrows
    have hp : p.length = f := hall p (List.mem_cons_self p rest)
    have hrest : ∀ q ∈ rest, q.length = f := fun q hq => hall q (List.mem_cons_of_mem p hq)
    rw [acceptedTrialsB, Bool.and_eq_true] at hacc
    obtain ⟨hno, haccrest⟩ := hacc
    have hno' : graph_overlaps acc (Identity_rows p) = false := by
      simpa using hno
    have hlen' : (absorb_nonoverlapping acc (Identity_rows p)).length = f := by
      rw [absorb_length, Identity_rows_length, hlen, hp, Nat.min_self]
    have hrows' : ∀ i, i < f →
        (((absorb_nonoverlapping acc (Identity_rows p)).getD i []).Nodup ∧
          ((absorb_nonoverlapping acc (Identity_rows p)).getD i []).length = m + 1) := by
      intro i hi
      rw [absorb_getD acc (Identity_rows p) i (by omega) (by rw [Identity_rows_length]; omega)]
      rw [Identity_rows_getD p i (by omega)]
      obtain ⟨hnd, hlm⟩ := hrows i hi
      have hx := no_overlap_notMem acc p i (by omega) (by omega) hno'
      constructor
      · simp only [List.nodup_append, List.nodup_cons, List.nodup_nil]
        exact ⟨hnd, by simp, by simpa [List.disjoint_singleton] using hx⟩
      · rw [List.length_append, hlm]
        simp
    have := ih (absorb_nonoverlapping acc (Identity_rows p)) (m + 1) hlen' hrest haccrest hrows'
    simp only [List.foldl_cons]
    refine ⟨this.1, fun i hi => ?_⟩
    obtain ⟨a, b⟩ := this.2 i hi
    exact ⟨a, by rw [b, List.length_cons]; omega⟩

lemma colWeight_foldl (f j : Nat) :
    ∀ (trials acc : List (List Nat)),
      acc.length = f → (∀ p ∈ trials, p.length = f) →
      colWeight (trials.foldl (fun acc p => absorb_nonoverlapping acc (Identity_rows p)) acc) j =
        colWeight acc j + (trials.map (fun p => p.count j)).sum := by
  intro trials
  induction trials with
  | nil => intro acc _ _; simp
  | cons p rest ih =>
    intro acc hlen hall
    have hp : p.length = f := hall p (List.mem_cons_self p rest)
    simp only [List.foldl_cons, List.map_cons, List.sum_cons]
    rw [ih (absorb_nonoverlapping acc (Identity_rows p))
      (by rw [absorb_length, Identity_rows_length, hlen, hp, Nat.min_self])
      (fun q hq => hall q (List.mem_cons_of_mem p hq))]
    rw [show absorb_nonoverlapping acc (Identity_rows p) =
      List.zipWith (fun a b => a ++ b) acc (Identity_rows p) from rfl]
    rw [colWeight_zipWith j acc (Identity_rows p)
      (by rw [Identity_rows_length, hlen, hp])]
    rw [colWeight_identity]
    omega

lemma perm_count_one (p : List Nat) (f j : Nat) (hlen : p.length = f)
    (hnd : p.Nodup) (hbd : ∀ x ∈ p, x < f) (hj : j < f) : p.count j = 1 := by
  have hsub : p.toFinset ⊆ Finset.range f := by
    intro x hx
    rw [List.mem_toFinset] at hx
    exact Finset.mem_range.mpr (hbd x hx)
  have hcard : p.toFinset.card = f := by rw [List.toFinset_card_of_nodup hnd, hlen]
  have heq : p.toFinset = Finset.range f :=
    Finset.eq_of_subset_of_card_le hsub (by rw [hcard, Finset.card_range])
  have hjmem : j ∈ p := by
    rw [← List.mem_toFinset, heq]
    exact Finset.mem_range.mpr hj
  exact List.count_eq_one_of_mem hnd hjmem

/-- C5: for every `k ≤ f` and every accepted run of the non-overlapping
permutation sampler (first permutation `p0`, then `k - 1` accepted trials),
the `"permutation"` submatrix has dimension `f`, every row has weight
exactly `k` with no repeated index, and every column `j < f` has weight
exactly `k`. -/
theorem permutation_sum_regular (f k : Nat) (p0 : List Nat)
    (trials : List (List Nat)) (hk : 0 < k) (hkf : k ≤ f)
    (htl : trials.length = k - 1)
    (hp0 : p0.length = f ∧ p0.Nodup ∧ ∀ x ∈ p0, x < f)
    (htr : ∀ p ∈ trials, p.length = f ∧ p.Nodup ∧ ∀ x ∈ p, x < f)
    (hacc : acceptedTrialsB (Identity_rows p0) trials = true) :
    (permutation_submatrix p0 trials).length = f ∧
      (∀ i, i < f → ((permutation_submatrix p0 trials).getD i []).Nodup ∧
        ((permutation_submatrix p0 trials).getD i []).length = k) ∧
      ∀ j, j < f → colWeight (permutation_submatrix p0 trials) j = k := by
  obtain ⟨hp0l, hp0nd, hp0bd⟩ := hp0
  have hrows0 : ∀ i, i < f →
      (((Identity_rows p0).getD i []).Nodup ∧ ((Identity_rows p0).getD i []).length = 1) := by
    intro i hi
    rw [Identity_rows_getD p0 i (by omega)]
    exact ⟨by simp, by simp⟩
  have hmain := permfold_inv f trials (Identity_rows p0) 1
    (by rw [Identity_rows_length, hp0l]) (fun p hp => (htr p hp).1) hacc hrows0
  refine ⟨hmain.1, fun i hi => ?_, fun j hj => ?_⟩
  · obtain ⟨a, b⟩ := hmain.2 i hi
    refine ⟨a, ?_⟩
    show ((trials.foldl (fun acc p => absorb_nonoverlapping acc (Identity_rows p))
      (Identity_rows p0)).getD i []).length = k
    rw [b, htl]
    omega
  · have hfold : colWeight (permutation_submatrix p0 trials) j =
        colWeight (Identity_rows p0) j + (trials.map (fun p => p.count j)).sum :=
      colWeight_foldl f j trials (Identity_rows p0)
        (by rw [Identity_rows_length, hp0l]) (fun p hp => (htr p hp).1)
    have hones : trials.map (fun p => p.count j) = trials.map (fun _ => 1) := by
      apply List.map_congr_left
      intro p hp
      obtain ⟨a, b, c⟩ := htr p hp
      exact perm_count_one p f j a b c hj
    rw [hfold, colWeight_identity, perm_count_one p0 f j hp0l hp0nd hp0bd hj, hones,
      sum_map_const, htl]
    omega

/-- C5 witness: the theorem applied to `f = 2`, `k = 2`, first permutation
`[0, 1]`, accepted trial `[1, 0]`, at row 0 and column 0. -/
theorem permutation_sum_regular_witness :
    (permutation_submatrix [0, 1] [[1, 0]]).length = 2 ∧
      (((permutation_submatrix [0, 1] [[1, 0]]).getD 0 []).Nodup ∧
        ((permutation_submatrix [0, 1] [[1, 0]]).getD 0 []).length = 2) ∧
      colWeight (permutation_submatrix [0, 1] [[1, 0]]) 0 = 2 :=
  ⟨(permutation_sum_regular 2 2 [0, 1] [[1, 0]] (by decide) (by decide) (by decide)
      (by decide) (by decide) (by decide)).1,
    (permutation_sum_regular 2 2 [0, 1] [[1, 0]] (by decide) (by decide) (by decide)
      (by decide) (by decide) (by decide)).2.1 0 (by decide),
    (permutation_sum_regular 2 2 [0, 1] [[1, 0]] (by decide) (by decide) (by decide)
      (by decide) (by decide) (by decide)).2.2 0 (by decide)⟩

/-! ### The protograph lift (claims C6, C7, C8, C9, C10) -/

/-- Modelled from the spec: `permute_rows` from `TannerGraph.py` (not under
`src/`): a drawn permutation `rp` of the row indices reorders the check
nodes. -/
def permute_rows (g : List (List Nat)) (rp : List Nat) : List (List Nat) :=
  rp.map (fun i => g.getD i [])

/-- Modelled from the spec: `permute_columns` from `TannerGraph.py` (not
under `src/`): a drawn permutation `cp` of the column indices is applied to
every variable-node index. -/
def permute_columns (g : List (List Nat)) (cp : List Nat) : List (List Nat) :=
  g.map (fun row => row.map (fun x => cp.getD x 0))

/-- The random outcomes consumed by one `ProtographLDPC.submatrix` call:
the first permutation and accepted trials of the `"permutation"` branch, the
regular-construction randomness, the `random.sample` seed of
`"quasi-cyclic"`, and the row/column permutations of
`"permuted-quasi-cyclic"`. -/
structure SubRand where
  p0 : List Nat
  trials : List (List Nat)
  reg : RegRand
  qcSeed : List Nat
  rowPerm : List Nat
  colPerm : List Nat

/-- `ProtographLDPC.submatrix`: dispatch on the submatrix construction
name. -/
def submatrix (construction : String) (factor v : Nat) (rnd : SubRand) :
    Except String (List (List Nat)) :=
  if construction = "permutation" then
    if v = 1 then .ok (Identity_rows rnd.p0)
    else .ok (permutation_submatrix rnd.p0 rnd.trials)
  else if construction = "regular" then
    (RegularLDPC_init [factor, factor, v] "populate-rows" rnd.reg).map
      (fun M => M.tanner_graph)
  else if construction = "quasi-cyclic" then
    .ok (construct_cyclic_submatrix rnd.qcSeed factor)
  else if construction = "permuted-quasi-cyclic" then
    .ok (permute_columns
      (permute_rows (construct_cyclic_submatrix (List.range v) factor) rnd.rowPerm)
      rnd.colPerm)
  else .error "Invalid construction method"

/-- Modelled from the spec: `TannerGraph.insert` (not under `src/`) splices
a submatrix at offsets `[r, c]`: each edge `(i, x)` of `sub` adds the edge
`(i + r, x + c)` to the target graph.  The defensive duplicate check, which
per the spec "should not occur given correct submatrix construction", is not
modelled. -/
def insertGraph (g sub : List (List Nat)) (r c : Nat) : List (List Nat) :=
  List.zipWith
    (fun i row => if r ≤ i ∧ i < r + sub.length
      then row ++ (sub.getD (i - r) []).map (fun x => x + c) else row)
    (List.range g.length) g

/-- The doubly nested cell loop of `ProtographLDPC.expanded_protograph`, in
raster order over the block positions `(R, C)` (the Python loop variables
are `r = R * factor`, `c = C * factor`); `rnds R C` supplies the randomness
of the submatrix built at block `(R, C)`. -/
def expandCells (factor : Nat) (construction : String) (get : Nat → Nat → Nat)
    (rnds : Nat → Nat → SubRand) :
    List (Nat × Nat) → List (List Nat) → Except String (List (List Nat))
  | [], g => .ok g
  | (R, C) :: rest, g =>
    if factor < get R C then .error "Invalid protograph value for given lift factor"
    else if get R C = 0 then expandCells factor construction get rnds rest g
    else
      match submatrix construction factor (get R C) (rnds R C) with
      | .error e => .error e
      | .ok sub => expandCells factor construction get rnds rest
          (insertGraph g sub (R * factor) (C * factor))

/-- The block positions visited by `expanded_protograph`, in raster
order. -/
def cellList (h w : Nat) : List (Nat × Nat) :=
  (List.range h).flatMap (fun R => (List.range w).map (fun C => (R, C)))

/-- `ProtographLDPC.expanded_protograph`: allocate `height * factor` empty
check-node rows and process every block position. -/
def expanded_protograph (get : Nat → Nat → Nat) (ph pw factor : Nat)
    (construction : String) (rnds : Nat → Nat → SubRand) :
    Except String (List (List Nat)) :=
  expandCells factor construction get rnds (cellList ph pw)
    (List.replicate (ph * factor) [])

/-- The attributes a finished `ProtographLDPC` object carries. -/
structure ProtographLDPCModel where
  width : Nat
  height : Nat
  tanner_graph : List (List Nat)

/-- `ProtographLDPC.__init__`: the width and height attributes are the
protograph dimensions scaled by the lift factor, and the graph is the
expanded protograph (the protograph is given by its dimensions `pw × ph`
and its accessor `get`). -/
def ProtographLDPC_init (pw ph : Nat) (get : Nat → Nat → Nat) (factor : Nat)
    (construction : String) (rnds : Nat → Nat → SubRand) :
    Except String ProtographLDPCModel :=
  match expanded_protograph get ph pw factor construction rnds with
  | .error e => .error e
  | .ok g => .ok ⟨pw * factor, ph * factor, g⟩

/-- The four construction names `ProtographLDPC.submatrix` recognises. -/
def validSubName (construction : String) : Prop :=
  construction = "permutation" ∨ construction = "regular" ∨
    construction = "quasi-cyclic" ∨ construction = "permuted-quasi-cyclic"

lemma regular_init_ok (n h c : Nat) (rnd : RegRand) :
    RegularLDPC_init [n, h, c] "populate-rows" rnd =
      .ok ⟨n, h, n, c, inferredR n h c,
        populateRows n (inferredR n h c) c rnd.stream⟩ := by
  rfl

lemma submatrix_isOk (construction : String) (factor v : Nat) (rnd : SubRand)
    (h : validSubName construction) :
    ∃ g, submatrix construction factor v rnd = .ok g := by
  rcases h with h | h | h | h <;> subst h <;> unfold submatrix
  · by_cases hv : v = 1 <;> simp [hv]
  · rw [if_neg (by decide), if_pos rfl, regular_init_ok]
    exact ⟨_, rfl⟩
  · rw [if_neg (by decide), if_neg (by decide), if_pos rfl]
    exact ⟨_, rfl⟩
  · rw [if_neg (by decide), if_neg (by decide), if_neg (by decide), if_pos rfl]
    exact ⟨_, rfl⟩

lemma expandCells_error (factor : Nat) (construction : String)
    (get : Nat → Nat → Nat) (rnds : Nat → Nat → SubRand)
    (hc : validSubName construction) :
    ∀ (cs : List (Nat × Nat)) (g : List (List Nat)),
      (∃ p ∈ cs, factor < get p.1 p.2) →
      expandCells factor construction get rnds cs g =
        .error "Invalid protograph value for given lift factor" := by
  intro cs
  induction cs with
  | nil => intro g h; simp at h
  | cons p rest ih =>
    intro g h
    obtain ⟨q, hq, hgt⟩ := h
    rcases p with ⟨R, C⟩
    rw [expandCells]
    split
    · rfl
    · rename_i hngt
      have hqrest : q ∈ rest := by
        rcases List.mem_cons.mp hq with he | hr
        · exfalso
          rw [he] at hgt
          exact hngt hgt
        · exact hr
      split
      · exact ih g ⟨q, hqrest, hgt⟩
      · obtain ⟨sub, hsub⟩ := submatrix_isOk construction factor (get R C) (rnds R C) hc
        rw [hsub]
        exact ih _ ⟨q, hqrest, hgt⟩

lemma mem_cellList (h w R C : Nat) :
    (R, C) ∈ cellList h w ↔ R < h ∧ C < w := by
  rw [cellList]
  simp [List.mem_flatMap, List.mem_map, List.mem_range]

/-- C6: for every protograph, lift factor and construction name among the
recognised ones, if some entry of the protograph exceeds the lift factor
then the lift fails with the InvalidProtograph error (no graph is
returned). -/
theorem protograph_entry_too_large (pw ph factor : Nat) (get : Nat → Nat → Nat)
    (construction : String) (rnds : Nat → Nat → SubRand)
    (hc : validSubName construction)
    (hex : ∃ R, R < ph ∧ ∃ C, C < pw ∧ factor < get R C) :
    ProtographLDPC_init pw ph get factor construction rnds =
      .error "Invalid protograph value for given lift factor" := by
  obtain ⟨R, hR, C, hC, hgt⟩ := hex
  have hmem : (R, C) ∈ cellList ph pw := (mem_cellList ph pw R C).mpr ⟨hR, hC⟩
  have herr := expandCells_error factor construction get rnds hc (cellList ph pw)
    (List.replicate (ph * factor) []) ⟨(R, C), hmem, hgt⟩
  unfold ProtographLDPC_init expanded_protograph
  rw [herr]

/-- C6 witness: a 1×1 protograph with entry 5 and lift factor 2, lifted with
the quasi-cyclic construction. -/
theorem protograph_entry_too_large_witness :
    ProtographLDPC_init 1 1 (fun _ _ => 5) 2 "quasi-cyclic"
      (fun _ _ => ⟨[0], [], ⟨fun _ => [], fun _ => 0⟩, [0], [0], [0]⟩) =
      .error "Invalid protograph value for given lift factor" :=
  protograph_entry_too_large 1 1 2 (fun _ _ => 5) "quasi-cyclic"
    (fun _ _ => ⟨[0], [], ⟨fun _ => [], fun _ => 0⟩, [0], [0], [0]⟩)
    (Or.inr (Or.inr (Or.inl rfl))) ⟨0, by decide, 0, by decide, by decide⟩

lemma insertGraph_length (g sub : List (List Nat)) (r c : Nat) :
    (insertGraph g sub r c).length = g.length := by
  simp [insertGraph]

lemma expandCells_ok (factor : Nat) (construction : String)
    (get : Nat → Nat → Nat) (rnds : Nat → Nat → SubRand)
    (hc : validSubName construction) :
    ∀ (cs : List (Nat × Nat)) (g : List (List Nat)),
      (∀ p ∈ cs, get p.1 p.2 ≤ factor) →
      ∃ g2, expandCells factor construction get rnds cs g = .ok g2 ∧
        g2.length = g.length := by
  intro cs
  induction cs with
  | nil => intro g _; exact ⟨g, rfl, rfl⟩
  | cons p rest ih =>
    intro g hall
    rcases p with ⟨R, C⟩
    have hRC : get R C ≤ factor := hall (R, C) (List.mem_cons_self _ _)
    have hrest : ∀ q ∈ rest, get q.1 q.2 ≤ factor :=
      fun q hq => hall q (List.mem_cons_of_mem _ hq)
    rw [expandCells]
    rw [if_neg (by omega)]
    split
    · exact ih g hrest
    · obtain ⟨sub, hsub⟩ := submatrix_isOk construction factor (get R C) (rnds R C) hc
      rw [hsub]
      obtain ⟨g2, hok, hlen⟩ := ih (insertGraph g sub (R * factor) (C * factor)) hrest
      exact ⟨g2, hok, by rw [hlen, insertGraph_length]⟩

/-- C7: for every protograph (its entries within the lift factor, as the
data model requires), lift factor and recognised construction name, the
lift returns a graph object whose width is `pw * factor`, whose height is
`ph * factor`, and which has one check-node row per index below
`ph * factor`. -/
theorem protograph_lift_dimensions (pw ph factor : Nat) (get : Nat → Nat → Nat)
    (construction : String) (rnds : Nat → Nat → SubRand)
    (hc : validSubName construction)
    (hle : ∀ R, R < ph → ∀ C, C < pw → get R C ≤ factor) :
    (ProtographLDPC_init pw ph get factor construction rnds).map
      (fun G => (G.width, G.height, G.tanner_graph.length)) =
      .ok (pw * factor, ph * factor, ph * factor) := by
  have hall : ∀ p ∈ cellList ph pw, get p.1 p.2 ≤ factor := by
    intro p hp
    rcases p with ⟨R, C⟩
    obtain ⟨hR, hC⟩ := (mem_cellList ph pw R C).mp hp
    exact hle R hR C hC
  obtain ⟨g2, hok, hlen⟩ := expandCells_ok factor construction get rnds hc
    (cellList ph pw) (List.replicate (ph * factor) []) hall
  unfold ProtographLDPC_init expanded_protograph
  rw [hok]
  show Except.ok (pw * factor, ph * factor, g2.length) = _
  rw [hlen, List.length_replicate]

/-- C7 witness: the theorem applied to a 1×1 protograph with entry 1, lift
factor 2, permutation construction. -/
theorem protograph_lift_dimensions_witness :
    (ProtographLDPC_init 1 1 (fun _ _ => 1) 2 "permutation"
      (fun _ _ => ⟨[0, 1], [], ⟨fun _ => [], fun _ => 0⟩, [0], [0, 1], [0, 1]⟩)).map
      (fun G => (G.width, G.height, G.tanner_graph.length)) =
      .ok (1 * 2, 1 * 2, 1 * 2) :=
  protograph_lift_dimensions 1 1 2 (fun _ _ => 1) "permutation"
    (fun _ _ => ⟨[0, 1], [], ⟨fun _ => [], fun _ => 0⟩, [0], [0, 1], [0, 1]⟩)
    (Or.inl rfl) (by decide)

/-- C8: for every construction name that is none of the recognised ones,
both `RegularLDPC.get_parity_check_graph` and `ProtographLDPC.submatrix`
fail with the InvalidConstruction error rather than returning a graph. -/
theorem invalid_construction_error (n r c factor v : Nat) (method : String)
    (rreg : RegRand) (rsub : SubRand)
    (h1 : method ≠ "gallager") (h2 : method ≠ "populate-rows")
    (h3 : method ≠ "populate-columns") (h4 : method ≠ "permutation")
    (h5 : method ≠ "regular") (h6 : method ≠ "quasi-cyclic")
    (h7 : method ≠ "permuted-quasi-cyclic") :
    get_parity_check_graph n r c method rreg = .error "Invalid construction method" ∧
      submatrix method factor v rsub = .error "Invalid construction method" := by
  constructor
  · unfold get_parity_check_graph
    rw [if_neg h1, if_neg h2, if_neg h3]
  · unfold submatrix
    rw [if_neg h4, if_neg h5, if_neg h6, if_neg h7]

/-- C8 witness: the theorem applied to the unknown name `"bogus"`. -/
theorem invalid_construction_error_witness :
    get_parity_check_graph 4 2 2 "bogus" ⟨fun _ => [], fun _ => 0⟩ =
        .error "Invalid construction method" ∧
      submatrix "bogus" 2 1 ⟨[0], [], ⟨fun _ => [], fun _ => 0⟩, [0], [0], [0]⟩ =
        .error "Invalid construction method" :=
  invalid_construction_error 4 2 2 2 1 "bogus" ⟨fun _ => [], fun _ => 0⟩
    ⟨[0], [], ⟨fun _ => [], fun _ => 0⟩, [0], [0], [0]⟩
    (by decide) (by decide) (by decide) (by decide) (by decide) (by decide) (by decide)

lemma inferredR_self (f v : Nat) (hf : 0 < f) : inferredR f f v = v := by
  unfold inferredR
  have hfq : (f : ℚ) ≠ 0 := by
    exact_mod_cast hf.ne'
  rw [div_self hfq, one_mul, Int.floor_natCast]
  simp

/-- Modelled from the spec: the `"regular"` submatrix as the spec words it —
delegate to the row-regular construction with `n = height = f` and
row weight = column weight = `v`. -/
def spec_regular_submatrix (f v : Nat) (s : Nat → Nat) : List (List Nat) :=
  populateRows f v v s

/-- C9: for every lift factor `f > 0` and multiplicity `0 < v ≤ f`, the
`"regular"` submatrix branch equals the row-regular RegularLDPC
construction with width `f`, height `f` and column weight `v`, whose
inferred row weight is exactly `v`; every row of the result has weight
(length) exactly `v`. -/
theorem regular_submatrix_refines (f v : Nat) (rnd : SubRand) (hf : 0 < f)
    (hv : 0 < v) (hvf : v ≤ f) :
    inferredR f f v = v ∧
      submatrix "regular" f v rnd = .ok (spec_regular_submatrix f v rnd.reg.stream) ∧
      ∀ row ∈ spec_regular_submatrix f v rnd.reg.stream, row.length = v := by
  have hinf := inferredR_self f v hf
  refine ⟨hinf, ?_, ?_⟩
  · unfold submatrix
    rw [if_neg (by decide), if_pos rfl, regular_init_ok f f v rnd.reg]
    show Except.ok (populateRows f (inferredR f f v) v rnd.reg.stream) = _
    rw [hinf]
    rfl
  · intro row hrow
    exact populateRowsAux_row_length f v (f * v) rnd.reg.stream (f * v / v) 0 _ 0 row hrow

/-- C9 witness: the theorem applied to `f = 2`, `v = 1`. -/
theorem regular_submatrix_refines_witness :
    inferredR 2 2 1 = 1 ∧
      submatrix "regular" 2 1 ⟨[0, 1], [], ⟨fun _ => [], fun _ => 0⟩, [0], [0, 1], [0, 1]⟩ =
        .ok (spec_regular_submatrix 2 1 (fun _ => 0)) :=
  ⟨(regular_submatrix_refines 2 1 ⟨[0, 1], [], ⟨fun _ => [], fun _ => 0⟩, [0], [0, 1], [0, 1]⟩
      (by decide) (by decide) (by decide)).1,
    (regular_submatrix_refines 2 1 ⟨[0, 1], [], ⟨fun _ => [], fun _ => 0⟩, [0], [0, 1], [0, 1]⟩
      (by decide) (by decide) (by decide)).2.1⟩

lemma inferredR_7_5_2 : inferredR 7 5 2 = 2 := by
  unfold inferredR
  have h2 : Int.floor (((7 : Nat) : ℚ) / ((5 : Nat) : ℚ) * ((2 : Nat) : ℚ)) = (2 : ℤ) := by
    rw [Int.floor_eq_iff]
    constructor <;> norm_num
  rw [h2]
  rfl

/-- C10: the 3-argument RegularLDPC constructor infers the row weight by
truncating `(n / h) * c`, and the populate-rows graph has exactly
`n * c / r` check-node keys; at `n = 7`, `h = 5`, `c = 2` the inferred row
weight is `2` and the graph carries `7` check nodes against a declared
height attribute of `5`. -/
theorem regular_inferred_height_mismatch (rnd : RegRand) :
    inferredR 7 5 2 = 2 ∧
      (∀ (n r c : Nat) (s : Nat → Nat), (populateRows n r c s).length = n * c / r) ∧
      RegularLDPC_init [7, 5, 2] "populate-rows" rnd =
        .ok ⟨7, 5, 7, 2, 2, populateRows 7 2 2 rnd.stream⟩ ∧
      (populateRows 7 2 2 rnd.stream).length = 7 ∧ (7 : Nat) ≠ 5 := by
  have hgen : ∀ (n r c : Nat) (s : Nat → Nat), (populateRows n r c s).length = n * c / r := by
    intro n r c s
    exact populateRowsAux_length n r (n * c) s (n * c / r) 0 _ 0
  refine ⟨inferredR_7_5_2, hgen, ?_, ?_, by decide⟩
  · rw [regular_init_ok 7 5 2 rnd, inferredR_7_5_2]
  · exact (hgen 7 2 2 rnd.stream).trans (by norm_num)
